import Mathlib

/-!
Shallow embedding of the bbpy Branch-and-Bound engine.

The Python source (src/bbpy) computes with IEEE floats including the
infinities produced by `float("inf")` and the NaN that arises from
`inf - inf`.  We model those values by `EFloat`: a rational together
with the two infinities and a NaN element.  Comparisons, subtraction,
the builtin `min`/`max` of two arguments and true division follow the
Python float semantics (every comparison involving NaN is false,
`min(a, b)` returns `a` unless `b < a`, `max(a, b)` returns `a`
unless `a < b`).
-/

namespace BbPy

inductive EFloat where
  | nan : EFloat
  | negInf : EFloat
  | fin : ℚ → EFloat
  | posInf : EFloat
deriving DecidableEq

namespace EFloat

/-- Python `a < b` on floats (false whenever either side is NaN). -/
def lt : EFloat → EFloat → Bool
  | nan, _ => false
  | _, nan => false
  | negInf, negInf => false
  | negInf, _ => true
  | fin _, negInf => false
  | fin a, fin b => decide (a < b)
  | fin _, posInf => true
  | posInf, _ => false

/-- Python `a <= b` on floats (false whenever either side is NaN). -/
def le : EFloat → EFloat → Bool
  | nan, _ => false
  | _, nan => false
  | negInf, _ => true
  | fin _, negInf => false
  | fin a, fin b => decide (a ≤ b)
  | fin _, posInf => true
  | posInf, posInf => true
  | posInf, _ => false

/-- Python float subtraction; `inf - inf` is NaN. -/
def sub : EFloat → EFloat → EFloat
  | nan, _ => nan
  | _, nan => nan
  | posInf, posInf => nan
  | posInf, _ => posInf
  | negInf, negInf => nan
  | negInf, _ => negInf
  | fin _, posInf => negInf
  | fin _, negInf => posInf
  | fin a, fin b => fin (a - b)

/-- Python `abs` on floats. -/
def eabs : EFloat → EFloat
  | nan => nan
  | negInf => posInf
  | posInf => posInf
  | fin a => fin (abs a)

/-- Python builtin `min(a, b)`: keeps `a` unless `b < a`. -/
def pymin (a b : EFloat) : EFloat := if lt b a then b else a

/-- Python builtin `max(a, b)`: keeps `a` unless `a < b`. -/
def pymax (a b : EFloat) : EFloat := if lt a b then b else a

/-- Python float true division, restricted to the cases reachable in the
source; division by a finite zero raises `ZeroDivisionError` in Python and
is unreachable in the engine (the only divisor is floored at `1e-16`), we
map it to NaN. -/
def ediv : EFloat → EFloat → EFloat
  | nan, _ => nan
  | _, nan => nan
  | posInf, posInf => nan
  | posInf, negInf => nan
  | negInf, posInf => nan
  | negInf, negInf => nan
  | posInf, fin b => if b < 0 then negInf else if 0 < b then posInf else nan
  | negInf, fin b => if b < 0 then posInf else if 0 < b then negInf else nan
  | fin _, posInf => fin 0
  | fin _, negInf => fin 0
  | fin a, fin b => if b = 0 then nan else fin (a / b)

end EFloat

/-- Solver status, mirroring `bbpy.solver.Status`. -/
inductive Status where
  | RUNNING | OPTIMAL | RELATIVE_OPTIMAL | INFEASIBLE | UNBOUNDED
  | TIME_LIMIT | ITER_LIMIT | MEMORY_LIMIT | ERROR
deriving DecidableEq

/-- Node status, mirroring `bbpy.bnb.node.NodeStatus`. -/
inductive NodeStatus where
  | OPEN | PRUNED | FEASIBLE | PROCESSED
deriving DecidableEq

/-- A Branch-and-Bound tree node, mirroring `bbpy.bnb.node.Node`.
`R` is the (opaque) region type, `X` the candidate-point type and `T`
the opaque trace payload; `x` is `None` (`Option.none`) until a
lower-bounding call fills it in. -/
structure Node (R X T : Type) where
  status : NodeStatus
  region : R
  level : ℕ
  x : Option X
  lb : EFloat
  trace : T
deriving DecidableEq

/-- `Node.__init__`: a fresh node is OPEN; the defaults of the Python
constructor are `x=None` and `lb=-inf` (passed explicitly by callers
that override them). -/
def Node.init {R X T : Type} (region : R) (level : ℕ) (x : Option X)
    (lb : EFloat) (trace : T) : Node R X T :=
  { status := NodeStatus.OPEN, region := region, level := level,
    x := x, lb := lb, trace := trace }

variable {R X T : Type}

/-!
Embedding of `bbpy.bnb.search.BestFirstSearch`.

`get_next` computes `min(range(len(queue)), key=lambda i: queue[i].lb)`
and then `queue.pop(min_idx)`.  The CPython builtin `min` keeps the
current best and replaces it only when a later key is strictly smaller,
so it returns the first index attaining the minimal key.
-/

/-- The scan performed by `min(range(len(queue)), key=...)`: `bi` is the
best index so far, `bv` its key, `i` the index of the head of the list
still to scan. -/
def bestFirstGo : List (Node R X T) → ℕ → EFloat → ℕ → ℕ
  | [], bi, _, _ => bi
  | n :: rest, bi, bv, i =>
      if EFloat.lt n.lb bv = true then bestFirstGo rest i n.lb (i + 1)
      else bestFirstGo rest bi bv (i + 1)

/-- `min(range(len(queue)), key=lambda i: queue[i].lb)`; `0` acts as the
junk value on the empty queue, where Python raises `ValueError`. -/
def BestFirstSearch.min_idx : List (Node R X T) → ℕ
  | [] => 0
  | n :: rest => bestFirstGo rest 0 n.lb 1

/-- `list.pop(i)`: remove and return the element at index `i`. -/
def listPop : List (Node R X T) → ℕ → Option (Node R X T × List (Node R X T))
  | [], _ => none
  | n :: rest, 0 => some (n, rest)
  | n :: rest, i + 1 =>
      match listPop rest i with
      | some (r, rest') => some (r, n :: rest')
      | none => none

/-- `BestFirstSearch.get_next`: pop the queue at the index of the first
minimal `lb`.  `none` models the `ValueError` Python raises on an empty
queue. -/
def BestFirstSearch.get_next (queue : List (Node R X T)) :
    Option (Node R X T × List (Node R X T)) :=
  listPop queue (BestFirstSearch.min_idx queue)

/-- `BestFirstSearch.add` (and every other rule's `add`): append. -/
def BestFirstSearch.add (queue : List (Node R X T)) (node : Node R X T) :
    List (Node R X T) :=
  queue ++ [node]

/-!
Embedding of the `BnB` driver (`bbpy.bnb.bnb.BnB`).

The four pluggable strategy contracts are function parameters gathered
in `Strategy`; the external `Problem` contract is `PyProblem`.  Side
effects of the Python code become explicit: `LowerBoundingMethod.bound`
mutates `node.x` and `node.lb`, so it is a function returning the new
pair; `get_next` mutates the queue, so it returns the dequeued node
together with the remaining queue.  Wall-clock time (`time.time() -
self.start_time`) is an external input, supplied as one rational per
iteration.
-/

/-- The strategy plug-ins consumed by the driver. -/
structure Strategy (R X T : Type) where
  add : List (Node R X T) → Node R X T → List (Node R X T)
  getNext : List (Node R X T) → Node R X T × List (Node R X T)
  lbBound : Node R X T → Option X × EFloat
  ubBound : Node R X T → Option X
  branch : Node R X T → List (Node R X T)

/-- The external `Problem` contract (`bbpy.problem.Problem`). -/
structure PyProblem (X : Type) where
  value : Option X → EFloat
  feasible : Option X → ℚ → Bool

/-- The solver configuration (`BnB.__init__` parameters that the loop
reads; `verbose` only toggles printing, which has no observable state). -/
structure Config where
  keeptrace : Bool
  time_limit : EFloat
  node_limit : ℕ
  queue_limit : ℕ
  feas_tol : ℚ
  abs_gap_tol : ℚ
  rel_gap_tol : ℚ

/-- One record of `self.trace` (`BnB.solve`, trace update). -/
structure TraceRec (T : Type) where
  node_count : ℕ
  timer : ℚ
  queue_size : ℕ
  best_ub : EFloat
  best_lb : EFloat
  node : T
deriving DecidableEq

/-- The mutable attributes of `BnB.solve` that survive an iteration. -/
structure BnBState (R X T : Type) where
  node_count : ℕ
  best_x : Option X
  best_ub : EFloat
  best_lb : EFloat
  queue : List (Node R X T)
  status : Status
  timer : ℚ
  trace : List (TraceRec T)
deriving DecidableEq

/-- `bbpy.solver.Result` as produced at the end of `BnB.solve`. -/
structure Result (X T : Type) where
  status : Status
  solution : Option X
  objective_value : EFloat
  solve_time : ℚ
  iterations : ℕ
  trace : List (TraceRec T)
deriving DecidableEq

/-- `BnB._abs_gap`: `ub - lb`. -/
def _abs_gap (ub lb : EFloat) : EFloat := EFloat.sub ub lb

/-- The literal `1e-16` of `BnB._rel_gap`. -/
def relGapFloor : ℚ := 1 / 10 ^ 16

/-- `BnB._rel_gap`: `(ub - lb) / max(min(abs(ub), abs(lb)), 1e-16)`. -/
def _rel_gap (ub lb : EFloat) : EFloat :=
  EFloat.ediv (EFloat.sub ub lb)
    (EFloat.pymax (EFloat.pymin (EFloat.eabs ub) (EFloat.eabs lb))
      (EFloat.fin relGapFloor))

/-- The bounded node: `self.lb_method.bound(node)` updates `node.x` and
`node.lb` in place. -/
def boundNode (S : Strategy R X T) (n : Node R X T) : Node R X T :=
  { n with x := (S.lbBound n).1, lb := (S.lbBound n).2 }

/-- Upper bound evaluation (`BnB.solve`, lines 205-211): a feasible
`node.x` is accepted directly with value `node.lb`, otherwise the upper
bounding method produces a point that is evaluated by the problem. -/
def ubCandidate (P : PyProblem X) (ubB : Node R X T → Option X)
    (feas_tol : ℚ) (n : Node R X T) : Option X × EFloat :=
  if P.feasible n.x feas_tol = true then (n.x, n.lb)
  else ((ubB n), P.value (ubB n))

/-- Result of the upper bound update phase. -/
structure UbOutcome (R X T : Type) where
  node : Node R X T
  best_x : Option X
  best_ub : EFloat
  queue : List (Node R X T)

/-- Upper bound update (`BnB.solve`, lines 213-222): an improving
candidate becomes the incumbent, the node becomes FEASIBLE and the queue
is filtered by `qnode.lb <= self.best_ub` against the new incumbent. -/
def incumbentUpdate (x : Option X) (ub : EFloat) (node : Node R X T)
    (best_x : Option X) (best_ub : EFloat) (queue : List (Node R X T)) :
    UbOutcome R X T :=
  if EFloat.lt ub best_ub = true then
    { node := { node with status := NodeStatus.FEASIBLE },
      best_x := x, best_ub := ub,
      queue := queue.filter (fun q => EFloat.le q.lb ub) }
  else
    { node := node, best_x := best_x, best_ub := best_ub, queue := queue }

/-- Lower bound update (`BnB.solve`, lines 232-236): the minimum `lb`
over the queue — Python's `min` over a generator, a left fold keeping
the current value unless a later one is strictly smaller — or `best_ub`
when the queue is empty. -/
def lbRecompute : List (Node R X T) → EFloat → EFloat
  | [], best_ub => best_ub
  | n :: rest, _ => (rest.map Node.lb).foldl EFloat.pymin n.lb

/-- Sequential execution of `if condition: self.status = value`
statements: each pair is applied in order and, when its condition holds,
overwrites whatever any earlier statement set. -/
def overwriteChecks : Status → List (Bool × Status) → Status
  | st, [] => st
  | st, (c, v) :: rest => overwriteChecks (if c then v else st) rest

/-- The six termination checks of `BnB.solve` (lines 261-273), as
(condition, status) pairs in the order the source executes them:
time limit, node limit, queue limit, absolute gap, relative gap,
queue empty. -/
def statusChecks (cfg : Config) (timer : ℚ) (node_count queue_len : ℕ)
    (abs_gap rel_gap : EFloat) : List (Bool × Status) :=
  [(EFloat.le cfg.time_limit (EFloat.fin timer), Status.TIME_LIMIT),
   (decide (cfg.node_limit ≤ node_count), Status.ITER_LIMIT),
   (decide (cfg.queue_limit ≤ queue_len), Status.MEMORY_LIMIT),
   (EFloat.le abs_gap (EFloat.fin cfg.abs_gap_tol), Status.RELATIVE_OPTIMAL),
   (EFloat.le rel_gap (EFloat.fin cfg.rel_gap_tol), Status.RELATIVE_OPTIMAL),
   (decide (queue_len = 0), Status.OPTIMAL)]

/-- Status update (`BnB.solve`, lines 261-273): six independent `if`
statements executed in order, each overwriting the status set by the
previous ones. -/
def updateStatus (cfg : Config) (timer : ℚ) (node_count queue_len : ℕ)
    (abs_gap rel_gap : EFloat) (st : Status) : Status :=
  overwriteChecks st (statusChecks cfg timer node_count queue_len
    abs_gap rel_gap)

/-- Tail of one loop iteration (`BnB.solve`, lines 232-273): lower bound
update, working values update, trace update, status update. -/
def finishIter (cfg : Config) (timerNow : ℚ) (node : Node R X T)
    (queue : List (Node R X T)) (best_x : Option X) (best_ub : EFloat)
    (s : BnBState R X T) : BnBState R X T :=
  let best_lb := lbRecompute queue best_ub
  let nc := s.node_count + 1
  let abs_gap := _abs_gap best_ub best_lb
  let rel_gap := _rel_gap best_ub best_lb
  let tr := if cfg.keeptrace then
      s.trace ++ [{ node_count := nc, timer := timerNow,
                    queue_size := queue.length, best_ub := best_ub,
                    best_lb := best_lb, node := node.trace }]
    else s.trace
  { node_count := nc, best_x := best_x, best_ub := best_ub,
    best_lb := best_lb, queue := queue,
    status := updateStatus cfg timerNow nc queue.length abs_gap rel_gap
      s.status,
    timer := timerNow, trace := tr }

/-- One iteration of the main loop of `BnB.solve` (lines 191-273),
returning the visited node (whose final status the loop leaves behind)
together with the successor state. -/
def stepIter (cfg : Config) (S : Strategy R X T) (P : PyProblem X)
    (timerNow : ℚ) (s : BnBState R X T) :
    Node R X T × BnBState R X T :=
  let node1 := boundNode S (S.getNext s.queue).1
  let rest := (S.getNext s.queue).2
  if EFloat.lt s.best_ub node1.lb = true then
    let node2 := { node1 with status := NodeStatus.PRUNED }
    (node2, finishIter cfg timerNow node2 rest s.best_x s.best_ub s)
  else
    let node2 := { node1 with status := NodeStatus.PROCESSED }
    let cand := ubCandidate P S.ubBound cfg.feas_tol node2
    let o := incumbentUpdate cand.1 cand.2 node2 s.best_x s.best_ub rest
    let q3 :=
      if (EFloat.lt (EFloat.fin cfg.abs_gap_tol) (_abs_gap o.best_ub o.node.lb)
          && EFloat.lt (EFloat.fin cfg.rel_gap_tol)
              (_rel_gap o.best_ub o.node.lb)) = true then
        o.queue ++ S.branch o.node
      else o.queue
    (o.node, finishIter cfg timerNow o.node q3 o.best_x o.best_ub s)

/-- The sequence of assignments `node.status = ...` executed during one
visit (`BnB.solve` lines 201, 203 and 215): PRUNED alone, or PROCESSED
possibly followed by FEASIBLE when the candidate improves the
incumbent. -/
def visitStatusAssignments (cfg : Config) (S : Strategy R X T)
    (P : PyProblem X) (s : BnBState R X T) : List NodeStatus :=
  if EFloat.lt s.best_ub (boundNode S (S.getNext s.queue).1).lb = true then
    [NodeStatus.PRUNED]
  else if EFloat.lt (ubCandidate P S.ubBound cfg.feas_tol
      { boundNode S (S.getNext s.queue).1 with
          status := NodeStatus.PROCESSED }).2 s.best_ub = true then
    [NodeStatus.PROCESSED, NodeStatus.FEASIBLE]
  else [NodeStatus.PROCESSED]

/-- The dequeued node as bounded and marked PROCESSED in the non-pruned
branch of an iteration. -/
def processedNode (S : Strategy R X T) (s : BnBState R X T) : Node R X T :=
  { boundNode S (S.getNext s.queue).1 with status := NodeStatus.PROCESSED }

/-- The upper bound update outcome of a non-pruned iteration. -/
def iterOutcome (cfg : Config) (S : Strategy R X T) (P : PyProblem X)
    (s : BnBState R X T) : UbOutcome R X T :=
  incumbentUpdate
    (ubCandidate P S.ubBound cfg.feas_tol (processedNode S s)).1
    (ubCandidate P S.ubBound cfg.feas_tol (processedNode S s)).2
    (processedNode S s) s.best_x s.best_ub (S.getNext s.queue).2

/-- The queue left by the branching test of a non-pruned iteration. -/
def iterQueue (cfg : Config) (S : Strategy R X T) (P : PyProblem X)
    (s : BnBState R X T) : List (Node R X T) :=
  if (EFloat.lt (EFloat.fin cfg.abs_gap_tol)
        (_abs_gap (iterOutcome cfg S P s).best_ub
          (iterOutcome cfg S P s).node.lb)
      && EFloat.lt (EFloat.fin cfg.rel_gap_tol)
        (_rel_gap (iterOutcome cfg S P s).best_ub
          (iterOutcome cfg S P s).node.lb)) = true then
    (iterOutcome cfg S P s).queue ++ S.branch (iterOutcome cfg S P s).node
  else (iterOutcome cfg S P s).queue

/-- Bound coherence: the incumbent value is never NaN, every queued
node's bound is NaN-free and does not exceed the incumbent, and the
global lower bound does not exceed the incumbent. -/
def BoundInv (s : BnBState R X T) : Prop :=
  s.best_ub ≠ EFloat.nan ∧
  (∀ n ∈ s.queue, n.lb ≠ EFloat.nan ∧ EFloat.le n.lb s.best_ub = true) ∧
  EFloat.le s.best_lb s.best_ub = true

/-- The state after the initialization phase of `BnB.solve` (lines
168-185): fresh bookkeeping and a queue holding the OPEN root node. -/
def initState (S : Strategy R X T) (rootRegion : R) (t0 : T) :
    BnBState R X T :=
  { node_count := 0, best_x := none, best_ub := EFloat.posInf,
    best_lb := EFloat.negInf,
    queue := S.add [] (Node.init rootRegion 0 none EFloat.negInf t0),
    status := Status.RUNNING, timer := 0, trace := [] }

/-- `k` iterations of the main loop: the loop body runs only while the
status is RUNNING, exactly as `while self.status == Status.RUNNING`. -/
def solveLoop (cfg : Config) (S : Strategy R X T) (P : PyProblem X)
    (rootRegion : R) (t0 : T) (timers : ℕ → ℚ) : ℕ → BnBState R X T
  | 0 => initState S rootRegion t0
  | k + 1 =>
      let s := solveLoop cfg S P rootRegion t0 timers k
      if s.status = Status.RUNNING then (stepIter cfg S P (timers k) s).2
      else s

/-- The `Result` returned by `BnB.solve` once the loop has stopped. -/
def resultOf (s : BnBState R X T) : Result X T :=
  { status := s.status, solution := s.best_x, objective_value := s.best_ub,
    solve_time := s.timer, iterations := s.node_count, trace := s.trace }

/-!
Concrete instances, used to evaluate the theorems on explicit inputs.
-/

/-- A concrete node over trivial region/point/trace types. -/
def nodeW (q : ℚ) : Node Unit Unit Unit :=
  Node.init () 0 (some ()) (EFloat.fin q) ()

/-- A concrete strategy: FIFO dequeue, constant bounds, no branching. -/
def SW : Strategy Unit Unit Unit :=
  { add := fun queue n => queue ++ [n],
    getNext := fun queue => (queue.headD (nodeW 0), queue.tail),
    lbBound := fun _ => (some (), EFloat.fin 0),
    ubBound := fun _ => some (),
    branch := fun _ => [] }

/-- A variant of `SW` with a different branching rule and upper bounding
method (used to observe that a pruned iteration never consults them). -/
def SW' : Strategy Unit Unit Unit :=
  { SW with branch := fun _ => [nodeW 9], ubBound := fun _ => none }

/-- A variant of `SW` that branches into two fresh nodes. -/
def SWb : Strategy Unit Unit Unit :=
  { SW with branch := fun _ => [nodeW 1, nodeW 1] }

/-- A concrete problem whose every point is feasible with value 0. -/
def PW : PyProblem Unit :=
  { value := fun _ => EFloat.fin 0, feasible := fun _ _ => true }

/-- A concrete problem that reports every point infeasible. -/
def PW' : PyProblem Unit :=
  { value := fun _ => EFloat.fin 7, feasible := fun _ _ => false }

/-- A concrete configuration with zero time limit and zero node limit. -/
def cfgW : Config :=
  { keeptrace := false, time_limit := EFloat.fin 0, node_limit := 0,
    queue_limit := 1000, feas_tol := 1 / 10 ^ 8, abs_gap_tol := 1 / 10 ^ 8,
    rel_gap_tol := 1 / 10 ^ 8 }

/-- A concrete mid-run state with a finite incumbent and one queued node. -/
def sW : BnBState Unit Unit Unit :=
  { node_count := 3, best_x := some (), best_ub := EFloat.fin (-1),
    best_lb := EFloat.negInf, queue := [nodeW 5],
    status := Status.RUNNING, timer := 0, trace := [] }

/-- A concrete mid-run state where the next candidate improves the
incumbent while another queued node gets filtered out. -/
def sW3 : BnBState Unit Unit Unit :=
  { node_count := 2, best_x := some (), best_ub := EFloat.fin 10,
    best_lb := EFloat.negInf, queue := [nodeW 12, nodeW 4],
    status := Status.RUNNING, timer := 0, trace := [] }

end BbPy

/-!
Theorems.
-/

namespace BbPy

namespace EFloat

theorem le_no_nan {a b : EFloat} (h : le a b = true) : a ≠ nan ∧ b ≠ nan := by
  cases a <;> cases b <;> simp_all [le]

theorem lt_no_nan {a b : EFloat} (h : lt a b = true) : a ≠ nan ∧ b ≠ nan := by
  cases a <;> cases b <;> simp_all [lt]

theorem le_refl' {a : EFloat} (h : a ≠ nan) : le a a = true := by
  cases a <;> simp_all [le]

theorem le_of_lt' {a b : EFloat} (h : lt a b = true) : le a b = true := by
  cases a <;> cases b <;> simp_all [lt, le] <;> exact le_of_lt h

theorem le_of_not_lt' {a b : EFloat} (ha : a ≠ nan) (hb : b ≠ nan)
    (h : lt a b = false) : le b a = true := by
  cases a <;> cases b <;> simp_all [lt, le]

theorem le_trans' {a b c : EFloat} (h1 : le a b = true) (h2 : le b c = true) :
    le a c = true := by
  cases a <;> cases b <;> cases c <;> simp_all [le] <;> exact le_trans h1 h2

theorem lt_of_lt_of_le' {a b c : EFloat} (h1 : lt a b = true)
    (h2 : le b c = true) : lt a c = true := by
  cases a <;> cases b <;> cases c <;> simp_all [lt, le] <;>
    exact lt_of_lt_of_le h1 h2

theorem lt_trans' {a b c : EFloat} (h1 : lt a b = true) (h2 : lt b c = true) :
    lt a c = true := by
  cases a <;> cases b <;> cases c <;> simp_all [lt] <;> exact lt_trans h1 h2

theorem lt_irrefl' (a : EFloat) : lt a a = false := by
  cases a <;> simp [lt]

theorem pymin_cases (a b : EFloat) : pymin a b = a ∨ pymin a b = b := by
  unfold pymin; split <;> simp

theorem pymin_le_left {a b : EFloat} (ha : a ≠ nan) (hb : b ≠ nan) :
    le (pymin a b) a = true := by
  unfold pymin; split
  · exact le_of_lt' (by assumption)
  · exact le_refl' ha

theorem pymin_le_right {a b : EFloat} (ha : a ≠ nan) (hb : b ≠ nan) :
    le (pymin a b) b = true := by
  unfold pymin; split
  · exact le_refl' hb
  · rename_i h; exact le_of_not_lt' hb ha (by simpa using h)

theorem posInf_lt (a : EFloat) : lt posInf a = false := by
  cases a <;> simp [lt]

theorem foldl_pymin_mem (l : List EFloat) (a : EFloat) :
    l.foldl pymin a = a ∨ l.foldl pymin a ∈ l := by
  induction l generalizing a with
  | nil => exact Or.inl rfl
  | cons b l ih =>
      rcases ih (pymin a b) with h | h
      · rcases pymin_cases a b with hc | hc
        · rw [List.foldl_cons, h, hc]; exact Or.inl rfl
        · rw [List.foldl_cons, h, hc]; exact Or.inr (List.mem_cons_self b l)
      · exact Or.inr (List.mem_cons_of_mem b h)

theorem foldl_pymin_le (l : List EFloat) (a : EFloat) (ha : a ≠ nan)
    (hl : ∀ e ∈ l, e ≠ nan) :
    le (l.foldl pymin a) a = true ∧
    ∀ e ∈ l, le (l.foldl pymin a) e = true := by
  induction l generalizing a with
  | nil => exact ⟨le_refl' ha, by simp⟩
  | cons b l ih =>
      have hb : b ≠ nan := hl b (List.mem_cons_self b l)
      have hl' : ∀ e ∈ l, e ≠ nan := fun e he =>
        hl e (List.mem_cons_of_mem b he)
      have hmin : pymin a b ≠ nan := by
        rcases pymin_cases a b with hc | hc <;> rw [hc] <;> assumption
      obtain ⟨h1, h2⟩ := ih (pymin a b) hmin hl'
      refine ⟨le_trans' h1 (pymin_le_left ha hb), ?_⟩
      intro e he
      rcases List.mem_cons.1 he with rfl | he'
      · exact le_trans' h1 (pymin_le_right ha hb)
      · exact h2 e he'

end EFloat

variable {R X T : Type}

theorem finishIter_queue (cfg : Config) (t : ℚ) (n : Node R X T)
    (q : List (Node R X T)) (bx : Option X) (bub : EFloat)
    (s : BnBState R X T) : (finishIter cfg t n q bx bub s).queue = q := rfl

theorem finishIter_best_ub (cfg : Config) (t : ℚ) (n : Node R X T)
    (q : List (Node R X T)) (bx : Option X) (bub : EFloat)
    (s : BnBState R X T) : (finishIter cfg t n q bx bub s).best_ub = bub := rfl

theorem finishIter_best_lb (cfg : Config) (t : ℚ) (n : Node R X T)
    (q : List (Node R X T)) (bx : Option X) (bub : EFloat)
    (s : BnBState R X T) :
    (finishIter cfg t n q bx bub s).best_lb = lbRecompute q bub := rfl

theorem finishIter_node_count (cfg : Config) (t : ℚ) (n : Node R X T)
    (q : List (Node R X T)) (bx : Option X) (bub : EFloat)
    (s : BnBState R X T) :
    (finishIter cfg t n q bx bub s).node_count = s.node_count + 1 := rfl

theorem finishIter_status (cfg : Config) (t : ℚ) (n : Node R X T)
    (q : List (Node R X T)) (bx : Option X) (bub : EFloat)
    (s : BnBState R X T) :
    (finishIter cfg t n q bx bub s).status =
      updateStatus cfg t (s.node_count + 1) q.length
        (_abs_gap bub (lbRecompute q bub)) (_rel_gap bub (lbRecompute q bub))
        s.status := rfl

theorem stepIter_pruned (cfg : Config) (S : Strategy R X T) (P : PyProblem X)
    (t : ℚ) (s : BnBState R X T)
    (h : EFloat.lt s.best_ub (boundNode S (S.getNext s.queue).1).lb = true) :
    stepIter cfg S P t s =
      ({ boundNode S (S.getNext s.queue).1 with status := NodeStatus.PRUNED },
       finishIter cfg t
         { boundNode S (S.getNext s.queue).1 with status := NodeStatus.PRUNED }
         (S.getNext s.queue).2 s.best_x s.best_ub s) := by
  unfold stepIter
  rw [if_pos h]

theorem stepIter_notPruned (cfg : Config) (S : Strategy R X T)
    (P : PyProblem X) (t : ℚ) (s : BnBState R X T)
    (h : EFloat.lt s.best_ub (boundNode S (S.getNext s.queue).1).lb = false) :
    stepIter cfg S P t s =
      (let node2 := { boundNode S (S.getNext s.queue).1 with
                        status := NodeStatus.PROCESSED }
       let cand := ubCandidate P S.ubBound cfg.feas_tol node2
       let o := incumbentUpdate cand.1 cand.2 node2 s.best_x s.best_ub
         (S.getNext s.queue).2
       let q3 :=
         if (EFloat.lt (EFloat.fin cfg.abs_gap_tol)
              (_abs_gap o.best_ub o.node.lb)
             && EFloat.lt (EFloat.fin cfg.rel_gap_tol)
                 (_rel_gap o.best_ub o.node.lb)) = true then
           o.queue ++ S.branch o.node
         else o.queue
       (o.node, finishIter cfg t o.node q3 o.best_x o.best_ub s)) := by
  unfold stepIter
  rw [if_neg (by simp [h])]

/-- Every iteration outcome is a `finishIter` of some node, queue and
incumbent applied to the incoming state. -/
theorem stepIter_ex (cfg : Config) (S : Strategy R X T) (P : PyProblem X)
    (t : ℚ) (s : BnBState R X T) :
    ∃ n q bx bub, stepIter cfg S P t s = (n, finishIter cfg t n q bx bub s) := by
  by_cases h : EFloat.lt s.best_ub (boundNode S (S.getNext s.queue).1).lb = true
  · rw [stepIter_pruned cfg S P t s h]
    exact ⟨_, _, _, _, rfl⟩
  · rw [stepIter_notPruned cfg S P t s (by simpa using h)]
    exact ⟨_, _, _, _, rfl⟩

/-- Claim C1: in every iteration of `BnB.solve` the termination checks
are evaluated in the fixed order time limit, node limit, queue limit,
absolute gap, relative gap, queue empty, each check that holds
overwriting any previously set status, so that later checks take
precedence; equivalently, `updateStatus` is the reverse-priority
cascade below.  In particular, whenever the iteration ends with an
empty queue — even if the elapsed time also exceeds the time limit —
the status is OPTIMAL, not TIME_LIMIT. -/
theorem C1_termination_precedence :
    (∀ (cfg : Config) (timer : ℚ) (nc ql : ℕ) (ag rg : EFloat) (st : Status),
      updateStatus cfg timer nc ql ag rg st =
        (if ql = 0 then Status.OPTIMAL
         else if EFloat.le rg (EFloat.fin cfg.rel_gap_tol) = true then
           Status.RELATIVE_OPTIMAL
         else if EFloat.le ag (EFloat.fin cfg.abs_gap_tol) = true then
           Status.RELATIVE_OPTIMAL
         else if cfg.queue_limit ≤ ql then Status.MEMORY_LIMIT
         else if cfg.node_limit ≤ nc then Status.ITER_LIMIT
         else if EFloat.le cfg.time_limit (EFloat.fin timer) = true then
           Status.TIME_LIMIT
         else st)) ∧
    (∀ (R X T : Type) (cfg : Config) (S : Strategy R X T) (P : PyProblem X)
      (t : ℚ) (s : BnBState R X T),
      (stepIter cfg S P t s).2.queue = [] →
      (stepIter cfg S P t s).2.status = Status.OPTIMAL) := by
  constructor
  · intro cfg timer nc ql ag rg st
    simp only [updateStatus, statusChecks, overwriteChecks]
    split_ifs <;> simp_all
  · intro R X T cfg S P t s hq
    obtain ⟨n, q, bx, bub, hstep⟩ := stepIter_ex cfg S P t s
    rw [hstep] at hq ⊢
    rw [finishIter_queue] at hq
    subst hq
    rw [finishIter_status]
    simp [updateStatus, statusChecks, overwriteChecks]

/-- Claim C1 witness: a concrete iteration that empties the queue while
the elapsed time exceeds the time limit still ends with status
OPTIMAL. -/
theorem C1_witness :
    (stepIter cfgW SW PW 1 (initState SW () ())).2.queue = [] ∧
    EFloat.le cfgW.time_limit (EFloat.fin 1) = true ∧
    (stepIter cfgW SW PW 1 (initState SW () ())).2.status = Status.OPTIMAL :=
  ⟨by with_unfolding_all rfl, by decide,
   C1_termination_precedence.2 Unit Unit Unit cfgW SW PW 1
     (initState SW () ()) (by with_unfolding_all rfl)⟩

/-- Claim C8: the relative-gap computation `BnB._rel_gap` equals
`(ub - lb) / max(min(|ub|, |lb|), 1e-16)` for all real `ub` and `lb`;
its denominator is floored at `1e-16` and hence strictly positive, so
the division never divides by zero. -/
theorem C8_rel_gap_floor (ub lb : ℚ) :
    _rel_gap (EFloat.fin ub) (EFloat.fin lb) =
      EFloat.fin ((ub - lb) / max (min (abs ub) (abs lb)) relGapFloor) ∧
    relGapFloor ≤ max (min (abs ub) (abs lb)) relGapFloor ∧
    0 < max (min (abs ub) (abs lb)) relGapFloor := by
  have hfloor : (0 : ℚ) < relGapFloor := by norm_num [relGapFloor]
  have hden : (0 : ℚ) < max (min (abs ub) (abs lb)) relGapFloor :=
    lt_of_lt_of_le hfloor (le_max_right _ _)
  have hmin : EFloat.pymin (EFloat.eabs (EFloat.fin ub))
      (EFloat.eabs (EFloat.fin lb)) = EFloat.fin (min (abs ub) (abs lb)) := by
    simp only [EFloat.eabs, EFloat.pymin, EFloat.lt]
    by_cases h : abs lb < abs ub
    · simp [h, min_eq_right (le_of_lt h)]
    · simp [h, min_eq_left (le_of_not_lt h)]
  have hmax : EFloat.pymax (EFloat.fin (min (abs ub) (abs lb)))
      (EFloat.fin relGapFloor) =
      EFloat.fin (max (min (abs ub) (abs lb)) relGapFloor) := by
    simp only [EFloat.pymax, EFloat.lt]
    by_cases h : min (abs ub) (abs lb) < relGapFloor
    · simp [h, max_eq_right (le_of_lt h)]
    · simp [h, max_eq_left (le_of_not_lt h)]
  refine ⟨?_, le_max_right _ _, hden⟩
  unfold _rel_gap
  rw [hmin, hmax]
  simp [EFloat.sub, EFloat.ediv, ne_of_gt hden]

/-- Claim C2: in every iteration of `BnB.solve`, if the dequeued node's
`lb` after lower bounding is strictly greater than the current
`best_ub`, the node is marked PRUNED and nothing further happens to it
this iteration — the outcome does not depend on the problem, the upper
bounding method or the branching rule, so `branch` is never called on
it; otherwise the node is first marked PROCESSED. -/
theorem C2_pruning_test (cfg : Config) (S S' : Strategy R X T)
    (P P' : PyProblem X) (t : ℚ) (s : BnBState R X T)
    (hget : S'.getNext = S.getNext) (hlb : S'.lbBound = S.lbBound) :
    (EFloat.lt s.best_ub (boundNode S (S.getNext s.queue).1).lb = true →
      (stepIter cfg S P t s).1 =
        { boundNode S (S.getNext s.queue).1 with
            status := NodeStatus.PRUNED } ∧
      (stepIter cfg S P t s).1.status = NodeStatus.PRUNED ∧
      stepIter cfg S' P' t s = stepIter cfg S P t s) ∧
    (EFloat.lt s.best_ub (boundNode S (S.getNext s.queue).1).lb = false →
      (visitStatusAssignments cfg S P s).head? = some NodeStatus.PROCESSED) := by
  have hb : boundNode S' = boundNode S := by
    funext n
    simp [boundNode, hlb]
  constructor
  · intro h
    refine ⟨?_, ?_, ?_⟩
    · rw [stepIter_pruned cfg S P t s h]
    · rw [stepIter_pruned cfg S P t s h]
    · rw [stepIter_pruned cfg S P t s h,
        stepIter_pruned cfg S' P' t s (by rw [hget, hb]; exact h)]
      rw [hget, hb]
  · intro h
    unfold visitStatusAssignments
    rw [if_neg (by simp [h])]
    split <;> rfl

/-- Claim C2 witness: a concrete pruned iteration — the node's status
is PRUNED and the iteration's outcome is unchanged when the branching
rule, the upper bounding method and the problem are replaced. -/
theorem C2_witness :
    EFloat.lt sW.best_ub (boundNode SW (SW.getNext sW.queue).1).lb = true ∧
    (stepIter cfgW SW PW 0 sW).1.status = NodeStatus.PRUNED ∧
    stepIter cfgW SW' PW' 0 sW = stepIter cfgW SW PW 0 sW := by
  have h := (C2_pruning_test cfgW SW SW' PW PW' 0 sW rfl rfl).1
    (by with_unfolding_all rfl)
  exact ⟨by with_unfolding_all rfl, h.2.1, h.2.2⟩

/-- Claim C3: whenever the candidate upper bound strictly improves
`best_ub`, the node is marked FEASIBLE, the candidate becomes the new
incumbent `(best_x, best_ub)` and the queue is immediately filtered:
every queued node whose `lb` strictly exceeds the new `best_ub` is
discarded and every queued node with `lb ≤ best_ub` is kept; inside a
full iteration the resulting state indeed carries the new incumbent and
the FEASIBLE node. -/
theorem C3_incumbent_update (cfg : Config) (S : Strategy R X T)
    (P : PyProblem X) (t : ℚ) (s : BnBState R X T) (x : Option X)
    (ub : EFloat) (node : Node R X T) (bx : Option X) (bub : EFloat)
    (queue : List (Node R X T)) (himp : EFloat.lt ub bub = true) :
    incumbentUpdate x ub node bx bub queue =
      { node := { node with status := NodeStatus.FEASIBLE }, best_x := x,
        best_ub := ub,
        queue := queue.filter (fun q => EFloat.le q.lb ub) } ∧
    (∀ m ∈ queue, EFloat.lt ub m.lb = true →
      m ∉ (incumbentUpdate x ub node bx bub queue).queue) ∧
    (∀ m ∈ queue, EFloat.le m.lb ub = true →
      m ∈ (incumbentUpdate x ub node bx bub queue).queue) ∧
    (EFloat.lt s.best_ub (boundNode S (S.getNext s.queue).1).lb = false →
      EFloat.lt (ubCandidate P S.ubBound cfg.feas_tol
        { boundNode S (S.getNext s.queue).1 with
            status := NodeStatus.PROCESSED }).2 s.best_ub = true →
      (stepIter cfg S P t s).1.status = NodeStatus.FEASIBLE ∧
      (stepIter cfg S P t s).2.best_ub =
        (ubCandidate P S.ubBound cfg.feas_tol
          { boundNode S (S.getNext s.queue).1 with
              status := NodeStatus.PROCESSED }).2 ∧
      (stepIter cfg S P t s).2.best_x =
        (ubCandidate P S.ubBound cfg.feas_tol
          { boundNode S (S.getNext s.queue).1 with
              status := NodeStatus.PROCESSED }).1) := by
  have hq : (incumbentUpdate x ub node bx bub queue).queue =
      queue.filter (fun q => EFloat.le q.lb ub) := by
    simp [incumbentUpdate, himp]
  refine ⟨?_, ?_, ?_, ?_⟩
  · simp [incumbentUpdate, himp]
  · intro m hm hlt
    rw [hq, List.mem_filter]
    rintro ⟨-, hle⟩
    have := EFloat.lt_of_lt_of_le' hlt hle
    rw [EFloat.lt_irrefl'] at this
    exact Bool.false_ne_true this
  · intro m hm hle
    rw [hq, List.mem_filter]
    exact ⟨hm, hle⟩
  · intro hnp himp2
    rw [stepIter_notPruned cfg S P t s hnp]
    refine ⟨?_, ?_, ?_⟩
    · simp [incumbentUpdate, himp2]
    · simp [incumbentUpdate, himp2, finishIter_best_ub]
    · simp [incumbentUpdate, himp2, finishIter]

/-- Claim C3 witness: a concrete improving candidate — the queue keeps
exactly the node whose bound does not exceed the new incumbent, and a
full concrete iteration records the new incumbent on a FEASIBLE node. -/
theorem C3_witness :
    EFloat.lt (EFloat.fin 3) (EFloat.fin 5) = true ∧
    (incumbentUpdate (some ()) (EFloat.fin 3) (nodeW 5) none (EFloat.fin 5)
      [nodeW 2, nodeW 7]).queue = [nodeW 2] ∧
    (stepIter cfgW SW PW 0 sW3).1.status = NodeStatus.FEASIBLE ∧
    (stepIter cfgW SW PW 0 sW3).2.best_ub = EFloat.fin 0 := by
  have h := C3_incumbent_update cfgW SW PW 0 sW3 (some ()) (EFloat.fin 3)
    (nodeW 5) none (EFloat.fin 5) [nodeW 2, nodeW 7] (by decide)
  have hs := h.2.2.2 (by with_unfolding_all rfl) (by with_unfolding_all rfl)
  refine ⟨by decide, ?_, hs.1, ?_⟩
  · rw [h.1]
    with_unfolding_all rfl
  · rw [hs.2.1]
    with_unfolding_all rfl

/-- Claim C6: in a non-pruned iteration the upper-bound candidate is the
node's own `x` with value `node.lb` when the problem reports it feasible
within `feas_tol` — and then the upper bounding method is not consulted
at all — and otherwise it is the point returned by
`UpperBoundingMethod.bound` valued by the problem's objective. -/
theorem C6_ub_candidate (P : PyProblem X) (ubB ubB' : Node R X T → Option X)
    (tol : ℚ) (n : Node R X T) :
    (P.feasible n.x tol = true →
      ubCandidate P ubB tol n = (n.x, n.lb) ∧
      ubCandidate P ubB tol n = ubCandidate P ubB' tol n) ∧
    (P.feasible n.x tol = false →
      ubCandidate P ubB tol n = (ubB n, P.value (ubB n))) := by
  constructor
  · intro h
    constructor <;> simp [ubCandidate, h]
  · intro h
    simp [ubCandidate, h]

/-- Claim C6 witness: a feasible concrete node is taken as its own
candidate with value `node.lb`, for any upper bounding method; an
infeasible one goes through the upper bounding method and the
problem's objective. -/
theorem C6_witness :
    PW.feasible (nodeW 2).x cfgW.feas_tol = true ∧
    ubCandidate PW SW.ubBound cfgW.feas_tol (nodeW 2) =
      ((nodeW 2).x, (nodeW 2).lb) ∧
    ubCandidate PW SW.ubBound cfgW.feas_tol (nodeW 2) =
      ubCandidate PW SW'.ubBound cfgW.feas_tol (nodeW 2) ∧
    PW'.feasible (nodeW 2).x cfgW.feas_tol = false ∧
    ubCandidate PW' SW.ubBound cfgW.feas_tol (nodeW 2) =
      (some (), EFloat.fin 7) := by
  have h1 := (C6_ub_candidate PW SW.ubBound SW'.ubBound cfgW.feas_tol
    (nodeW 2)).1 rfl
  have h2 := (C6_ub_candidate PW' SW.ubBound SW'.ubBound cfgW.feas_tol
    (nodeW 2)).2 rfl
  refine ⟨rfl, h1.1, h1.2, rfl, ?_⟩
  rw [h2]
  rfl

theorem lbRecompute_mem (q : List (Node R X T)) (h : q ≠ []) (bub : EFloat) :
    lbRecompute q bub ∈ q.map Node.lb := by
  match q with
  | [] => exact absurd rfl h
  | n :: rest =>
      rcases EFloat.foldl_pymin_mem (rest.map Node.lb) n.lb with hm | hm
      · rw [lbRecompute, hm]
        exact List.mem_cons_self _ _
      · exact List.mem_cons_of_mem _ hm

theorem lbRecompute_le (q : List (Node R X T)) (h : q ≠ []) (bub : EFloat)
    (hnn : ∀ n ∈ q, n.lb ≠ EFloat.nan) :
    ∀ n ∈ q, EFloat.le (lbRecompute q bub) n.lb = true := by
  match q with
  | [] => exact absurd rfl h
  | n :: rest =>
      have hn : n.lb ≠ EFloat.nan := hnn n (List.mem_cons_self n rest)
      have hr : ∀ e ∈ rest.map Node.lb, e ≠ EFloat.nan := by
        intro e he
        obtain ⟨m, hm, rfl⟩ := List.mem_map.1 he
        exact hnn m (List.mem_cons_of_mem n hm)
      obtain ⟨h1, h2⟩ := EFloat.foldl_pymin_le (rest.map Node.lb) n.lb hn hr
      intro m hm
      rcases List.mem_cons.1 hm with rfl | hm'
      · exact h1
      · exact h2 m.lb (List.mem_map.2 ⟨m, hm', rfl⟩)

theorem stepIter_node_count (cfg : Config) (S : Strategy R X T)
    (P : PyProblem X) (t : ℚ) (s : BnBState R X T) :
    (stepIter cfg S P t s).2.node_count = s.node_count + 1 := by
  obtain ⟨n, q, bx, bub, hstep⟩ := stepIter_ex cfg S P t s
  rw [hstep]
  exact finishIter_node_count cfg t n q bx bub s

theorem solveLoop_node_count_mono (cfg : Config) (S : Strategy R X T)
    (P : PyProblem X) (rr : R) (t0 : T) (timers : ℕ → ℚ) (k : ℕ) :
    (solveLoop cfg S P rr t0 timers k).node_count ≤
      (solveLoop cfg S P rr t0 timers (k + 1)).node_count := by
  show (solveLoop cfg S P rr t0 timers k).node_count ≤
    (if (solveLoop cfg S P rr t0 timers k).status = Status.RUNNING then
      (stepIter cfg S P (timers k) (solveLoop cfg S P rr t0 timers k)).2
     else solveLoop cfg S P rr t0 timers k).node_count
  split
  · rw [stepIter_node_count]
    exact Nat.le_succ _
  · exact le_rfl

/-- Claim C4: at the end of every iteration, `best_lb` is recomputed as
the minimum `lb` over the nodes then in the queue — Python's first-wins
fold, which on NaN-free bounds is a true minimum attained in the queue —
or set to `best_ub` when the queue is empty, which makes the final
absolute gap at exhaustion zero (for a finite incumbent). -/
theorem C4_lb_recompute (cfg : Config) (S : Strategy R X T)
    (P : PyProblem X) (t : ℚ) (s : BnBState R X T) :
    ((stepIter cfg S P t s).2.best_lb =
      lbRecompute (stepIter cfg S P t s).2.queue
        (stepIter cfg S P t s).2.best_ub) ∧
    ((stepIter cfg S P t s).2.queue = [] →
      (stepIter cfg S P t s).2.best_lb = (stepIter cfg S P t s).2.best_ub) ∧
    ((stepIter cfg S P t s).2.queue ≠ [] →
      (stepIter cfg S P t s).2.best_lb ∈
        (stepIter cfg S P t s).2.queue.map Node.lb ∧
      ((∀ n ∈ (stepIter cfg S P t s).2.queue, n.lb ≠ EFloat.nan) →
        ∀ n ∈ (stepIter cfg S P t s).2.queue,
          EFloat.le (stepIter cfg S P t s).2.best_lb n.lb = true)) ∧
    ((stepIter cfg S P t s).2.queue = [] →
      ∀ b : ℚ, (stepIter cfg S P t s).2.best_ub = EFloat.fin b →
      _abs_gap (stepIter cfg S P t s).2.best_ub
        (stepIter cfg S P t s).2.best_lb = EFloat.fin 0) := by
  obtain ⟨n, q, bx, bub, hstep⟩ := stepIter_ex cfg S P t s
  rw [hstep]
  simp only [finishIter_queue, finishIter_best_ub, finishIter_best_lb]
  refine ⟨trivial, ?_, ?_, ?_⟩
  · intro hq
    rw [hq, lbRecompute]
  · intro hq
    exact ⟨lbRecompute_mem q hq bub, lbRecompute_le q hq bub⟩
  · intro hq b hb
    rw [hq, lbRecompute, hb, _abs_gap, EFloat.sub]
    rw [sub_self]

/-- Claim C4 witness: a concrete iteration that exhausts the queue sets
`best_lb = best_ub` with zero gap, and a concrete branching iteration
sets `best_lb` to the minimum bound present in the queue. -/
theorem C4_witness :
    ((stepIter cfgW SW PW 1 (initState SW () ())).2.queue = [] ∧
     (stepIter cfgW SW PW 1 (initState SW () ())).2.best_lb =
       (stepIter cfgW SW PW 1 (initState SW () ())).2.best_ub) ∧
    ((stepIter cfgW SWb PW' 1 (initState SWb () ())).2.queue ≠ [] ∧
     (stepIter cfgW SWb PW' 1 (initState SWb () ())).2.best_lb ∈
       (stepIter cfgW SWb PW' 1 (initState SWb () ())).2.queue.map Node.lb) := by
  constructor
  · have h := (C4_lb_recompute cfgW SW PW 1 (initState SW () ())).2.1
      (by with_unfolding_all rfl)
    exact ⟨by with_unfolding_all rfl, h⟩
  · have h := ((C4_lb_recompute cfgW SWb PW' 1 (initState SWb () ())).2.2.1
      (by with_unfolding_all decide)).1
    exact ⟨by with_unfolding_all decide, h⟩

/-- Claim C9 counterexample: the claim says the status of a visited node
is updated exactly once per visit, but in the very first iteration from
the initial state (with a feasible candidate improving the infinite
incumbent) the driver assigns `node.status` twice: PROCESSED at line 203
and then FEASIBLE at line 215. -/
theorem C9_counterexample :
    visitStatusAssignments cfgW SW PW (initState SW () ()) =
      [NodeStatus.PROCESSED, NodeStatus.FEASIBLE] ∧
    ¬ ((visitStatusAssignments cfgW SW PW (initState SW () ())).length = 1) := by
  constructor
  · with_unfolding_all rfl
  · intro h
    rw [show visitStatusAssignments cfgW SW PW (initState SW () ()) =
      [NodeStatus.PROCESSED, NodeStatus.FEASIBLE] from by
        with_unfolding_all rfl] at h
    simp at h

/-- Claim C9 (amended): every node has status OPEN at creation; during a
visit the driver assigns its status once or twice — the sequence of
assignments is [PRUNED], [PROCESSED], or [PROCESSED, FEASIBLE], the last
exactly when an improving incumbent is found — and the visit ends with
the last assigned status, one of PRUNED, FEASIBLE or PROCESSED, never
OPEN again. -/
theorem C9_status_lifecycle (cfg : Config) (S : Strategy R X T)
    (P : PyProblem X) (t : ℚ) (s : BnBState R X T) (r : R) (lvl : ℕ)
    (x : Option X) (lb : EFloat) (tr : T) :
    (Node.init r lvl x lb tr : Node R X T).status = NodeStatus.OPEN ∧
    (visitStatusAssignments cfg S P s = [NodeStatus.PRUNED] ∨
     visitStatusAssignments cfg S P s = [NodeStatus.PROCESSED] ∨
     visitStatusAssignments cfg S P s =
       [NodeStatus.PROCESSED, NodeStatus.FEASIBLE]) ∧
    (visitStatusAssignments cfg S P s).getLastD NodeStatus.OPEN =
      (stepIter cfg S P t s).1.status ∧
    (stepIter cfg S P t s).1.status ≠ NodeStatus.OPEN := by
  refine ⟨rfl, ?_⟩
  by_cases h : EFloat.lt s.best_ub (boundNode S (S.getNext s.queue).1).lb = true
  · rw [stepIter_pruned cfg S P t s h]
    simp [visitStatusAssignments, h]
  · have h' : EFloat.lt s.best_ub (boundNode S (S.getNext s.queue).1).lb =
      false := by simpa using h
    rw [stepIter_notPruned cfg S P t s h']
    by_cases h2 : EFloat.lt (ubCandidate P S.ubBound cfg.feas_tol
        { boundNode S (S.getNext s.queue).1 with
            status := NodeStatus.PROCESSED }).2 s.best_ub = true
    · simp [visitStatusAssignments, h', h2, incumbentUpdate]
    · have h2' : EFloat.lt (ubCandidate P S.ubBound cfg.feas_tol
          { boundNode S (S.getNext s.queue).1 with
              status := NodeStatus.PROCESSED }).2 s.best_ub = false := by
        simpa using h2
      simp [visitStatusAssignments, h', h2', incumbentUpdate]

/-- Claim C10: the node dequeued in the first loop iteration is never
PRUNED (the initial `best_ub` is `+inf` and the pruning test is strict),
the loop body runs at least once because the status starts RUNNING and
limits are only checked at the end of an iteration, and hence the
returned result counts at least one iteration even under zero node or
time limits. -/
theorem C10_first_iteration (cfg : Config) (S : Strategy R X T)
    (P : PyProblem X) (rr : R) (t0 : T) (timers : ℕ → ℚ) :
    (solveLoop cfg S P rr t0 timers 0).status = Status.RUNNING ∧
    (stepIter cfg S P (timers 0) (solveLoop cfg S P rr t0 timers 0)).1.status ≠
      NodeStatus.PRUNED ∧
    (solveLoop cfg S P rr t0 timers 1).node_count = 1 ∧
    (∀ k, 1 ≤ k →
      1 ≤ (resultOf (solveLoop cfg S P rr t0 timers k)).iterations) := by
  have hfree : ∀ a, EFloat.lt (initState S rr t0 : BnBState R X T).best_ub a
      = false := fun a => EFloat.posInf_lt a
  have hone : (solveLoop cfg S P rr t0 timers 1).node_count = 1 := by
    show (if (solveLoop cfg S P rr t0 timers 0).status = Status.RUNNING then
      (stepIter cfg S P (timers 0) (solveLoop cfg S P rr t0 timers 0)).2
      else solveLoop cfg S P rr t0 timers 0).node_count = 1
    rw [if_pos (show (solveLoop cfg S P rr t0 timers 0).status =
      Status.RUNNING from rfl)]
    rw [stepIter_node_count]
    rfl
  refine ⟨rfl, ?_, hone, ?_⟩
  · show (stepIter cfg S P (timers 0) (initState S rr t0)).1.status ≠
      NodeStatus.PRUNED
    rw [stepIter_notPruned cfg S P (timers 0) (initState S rr t0) (hfree _)]
    by_cases h2 : EFloat.lt (ubCandidate P S.ubBound cfg.feas_tol
        { boundNode S (S.getNext (initState S rr t0).queue).1 with
            status := NodeStatus.PROCESSED }).2
        (initState S rr t0).best_ub = true
    · simp [incumbentUpdate, h2]
    · have h2' := Bool.eq_false_iff.2 h2
      simp [incumbentUpdate, h2']
  · intro k hk
    induction k with
    | zero => exact absurd hk (by simp)
    | succ k ih =>
        rcases Nat.eq_zero_or_pos k with h0 | h1
        · subst h0
          simpa [resultOf] using hone.ge
        · exact le_trans (ih h1)
            (solveLoop_node_count_mono cfg S P rr t0 timers k)

/-- Claim C10 witness: with node limit 0 and time limit 0 the solver
still performs one full iteration. -/
theorem C10_witness :
    cfgW.node_limit = 0 ∧ cfgW.time_limit = EFloat.fin 0 ∧
    1 ≤ (resultOf (solveLoop cfgW SW PW () () (fun _ => 1) 1)).iterations :=
  ⟨rfl, rfl,
   (C10_first_iteration cfgW SW PW () () (fun _ => 1)).2.2.2 1 (by decide)⟩

theorem listPop_eq (l : List (Node R X T)) (i : ℕ) (hi : i < l.length) :
    listPop l i = some (l.get ⟨i, hi⟩, l.eraseIdx i) := by
  induction l generalizing i with
  | nil => simp at hi
  | cons n rest ih =>
      cases i with
      | zero => rfl
      | succ i =>
          have hi' : i < rest.length := by simpa using hi
          show (match listPop rest i with
            | some (r, rest') => some (r, n :: rest')
            | none => none) = _
          rw [ih i hi']
          rfl

/-- Correctness of the CPython `min(..., key=...)` scan: either no
scanned key strictly improves on the running best `bv` (and the running
best index `bi` is returned), or the scan returns the offset of the
first element attaining the strict minimum below `bv`. -/
theorem bestFirstGo_spec (l : List (Node R X T)) (bi i : ℕ) (bv : EFloat)
    (hbv : bv ≠ EFloat.nan) (hl : ∀ n ∈ l, n.lb ≠ EFloat.nan) :
    (bestFirstGo l bi bv i = bi ∧ ∀ n ∈ l, EFloat.le bv n.lb = true) ∨
    (∃ k, ∃ hk : k < l.length, bestFirstGo l bi bv i = i + k ∧
      EFloat.lt (l.get ⟨k, hk⟩).lb bv = true ∧
      (∀ n ∈ l, EFloat.le (l.get ⟨k, hk⟩).lb n.lb = true) ∧
      (∀ m, ∀ hm : m < k, EFloat.lt (l.get ⟨k, hk⟩).lb
        (l.get ⟨m, Nat.lt_trans hm hk⟩).lb = true)) := by
  induction l generalizing bi i bv with
  | nil => exact Or.inl ⟨rfl, by simp⟩
  | cons n rest ih =>
      have hn : n.lb ≠ EFloat.nan := hl n (List.mem_cons_self n rest)
      have hrest : ∀ m ∈ rest, m.lb ≠ EFloat.nan := fun m hm =>
        hl m (List.mem_cons_of_mem n hm)
      by_cases hlt : EFloat.lt n.lb bv = true
      · have hred : bestFirstGo (n :: rest) bi bv i =
            bestFirstGo rest i n.lb (i + 1) := by
          simp [bestFirstGo, hlt]
        rcases ih i (i + 1) n.lb hn hrest with
          ⟨heq, hle⟩ | ⟨k, hk, heq, hklt, hkle, hkstr⟩
        · refine Or.inr ⟨0, by simp, ?_, ?_, ?_, ?_⟩
          · rw [hred, heq, Nat.add_zero]
          · simpa using hlt
          · intro m hm
            rcases List.mem_cons.1 hm with rfl | hm'
            · simpa using EFloat.le_refl' hn
            · simpa using hle m hm'
          · intro m hm
            exact absurd hm (Nat.not_lt_zero m)
        · refine Or.inr ⟨k + 1, Nat.succ_lt_succ hk, ?_, ?_, ?_, ?_⟩
          · rw [hred, heq]; omega
          · simpa using EFloat.lt_trans' hklt hlt
          · intro m hm
            rcases List.mem_cons.1 hm with rfl | hm'
            · simpa using EFloat.le_of_lt' hklt
            · simpa using hkle m hm'
          · intro m hm
            cases m with
            | zero => simpa using hklt
            | succ m => simpa using hkstr m (Nat.lt_of_succ_lt_succ hm)
      · have hltf : EFloat.lt n.lb bv = false := by simpa using hlt
        have hred : bestFirstGo (n :: rest) bi bv i =
            bestFirstGo rest bi bv (i + 1) := by
          simp [bestFirstGo, hltf]
        have hnb : EFloat.le bv n.lb = true := EFloat.le_of_not_lt' hn hbv hltf
        rcases ih bi (i + 1) bv hbv hrest with
          ⟨heq, hle⟩ | ⟨k, hk, heq, hklt, hkle, hkstr⟩
        · refine Or.inl ⟨by rw [hred, heq], ?_⟩
          intro m hm
          rcases List.mem_cons.1 hm with rfl | hm'
          · exact hnb
          · exact hle m hm'
        · refine Or.inr ⟨k + 1, Nat.succ_lt_succ hk, ?_, ?_, ?_, ?_⟩
          · rw [hred, heq]; omega
          · simpa using hklt
          · intro m hm
            rcases List.mem_cons.1 hm with rfl | hm'
            · simpa using EFloat.le_of_lt' (EFloat.lt_of_lt_of_le' hklt hnb)
            · simpa using hkle m hm'
          · intro m hm
            cases m with
            | zero => simpa using EFloat.lt_of_lt_of_le' hklt hnb
            | succ m => simpa using hkstr m (Nat.lt_of_succ_lt_succ hm)

/-- Claim C7: on every non-empty queue (of NaN-free bounds, so that
"minimum" is meaningful) `BestFirstSearch.get_next` removes and returns
the node at an index `i` whose `lb` is less than or equal to every
queued `lb` and strictly below the `lb` of every earlier index — i.e.
the first occurrence of the minimum in insertion order, matching a
linear left-to-right scan — and the remaining queue is the original
with exactly that index removed. -/
theorem C7_best_first (q : List (Node R X T)) (hq : q ≠ [])
    (hnn : ∀ n ∈ q, n.lb ≠ EFloat.nan) :
    ∃ i, ∃ hi : i < q.length,
      BestFirstSearch.get_next q = some (q.get ⟨i, hi⟩, q.eraseIdx i) ∧
      (∀ j, ∀ hj : j < q.length,
        EFloat.le (q.get ⟨i, hi⟩).lb (q.get ⟨j, hj⟩).lb = true) ∧
      (∀ j, ∀ hj : j < i,
        EFloat.lt (q.get ⟨i, hi⟩).lb (q.get ⟨j, Nat.lt_trans hj hi⟩).lb
          = true) := by
  match q with
  | [] => exact absurd rfl hq
  | n :: rest =>
      have hn : n.lb ≠ EFloat.nan := hnn n (List.mem_cons_self n rest)
      have hrest : ∀ m ∈ rest, m.lb ≠ EFloat.nan := fun m hm =>
        hnn m (List.mem_cons_of_mem n hm)
      have hmi : BestFirstSearch.min_idx (n :: rest) =
          bestFirstGo rest 0 n.lb 1 := rfl
      rcases bestFirstGo_spec rest 0 1 n.lb hn hrest with
        ⟨heq, hle⟩ | ⟨k, hk, heq, hklt, hkle, hkstr⟩
      · have hidx : BestFirstSearch.min_idx (n :: rest) = 0 := by
          rw [hmi, heq]
        have hi : (0 : ℕ) < (n :: rest).length := by simp
        refine ⟨0, hi, ?_, ?_, ?_⟩
        · show listPop (n :: rest) (BestFirstSearch.min_idx (n :: rest)) = _
          rw [hidx, listPop_eq (n :: rest) 0 hi]
        · intro j hj
          cases j with
          | zero => exact EFloat.le_refl' hn
          | succ j =>
              have hj' : j < rest.length := by simpa using hj
              simpa using hle (rest.get ⟨j, hj'⟩) (rest.get_mem _ _)
        · intro j hj
          exact absurd hj (Nat.not_lt_zero j)
      · have hidx : BestFirstSearch.min_idx (n :: rest) = k + 1 := by
          rw [hmi, heq]; omega
        have hi : k + 1 < (n :: rest).length := by
          simpa using Nat.succ_lt_succ hk
        refine ⟨k + 1, hi, ?_, ?_, ?_⟩
        · show listPop (n :: rest) (BestFirstSearch.min_idx (n :: rest)) = _
          rw [hidx, listPop_eq (n :: rest) (k + 1) hi]
        · intro j hj
          cases j with
          | zero => simpa using EFloat.le_of_lt' hklt
          | succ j =>
              have hj' : j < rest.length := by simpa using hj
              simpa using hkle (rest.get ⟨j, hj'⟩) (rest.get_mem _ _)
        · intro j hj
          cases j with
          | zero => simpa using hklt
          | succ j =>
              have hj' : j < k := by omega
              simpa using hkstr j hj'

/-- Claim C7 witness: on the queue with bounds [5, 2, 8] `get_next`
returns the `lb = 2` node and removes exactly it; the characterization
theorem applies at this concrete queue. -/
theorem C7_witness :
    BestFirstSearch.get_next [nodeW 5, nodeW 2, nodeW 8] =
      some (nodeW 2, [nodeW 5, nodeW 8]) ∧
    (∃ i, ∃ hi : i < ([nodeW 5, nodeW 2, nodeW 8] :
        List (Node Unit Unit Unit)).length,
      BestFirstSearch.get_next [nodeW 5, nodeW 2, nodeW 8] =
        some (([nodeW 5, nodeW 2, nodeW 8] :
            List (Node Unit Unit Unit)).get ⟨i, hi⟩,
          ([nodeW 5, nodeW 2, nodeW 8] :
            List (Node Unit Unit Unit)).eraseIdx i) ∧
      (∀ j, ∀ hj : j < ([nodeW 5, nodeW 2, nodeW 8] :
          List (Node Unit Unit Unit)).length,
        EFloat.le (([nodeW 5, nodeW 2, nodeW 8] :
            List (Node Unit Unit Unit)).get ⟨i, hi⟩).lb
          (([nodeW 5, nodeW 2, nodeW 8] :
            List (Node Unit Unit Unit)).get ⟨j, hj⟩).lb = true) ∧
      (∀ j, ∀ hj : j < i,
        EFloat.lt (([nodeW 5, nodeW 2, nodeW 8] :
            List (Node Unit Unit Unit)).get ⟨i, hi⟩).lb
          (([nodeW 5, nodeW 2, nodeW 8] :
            List (Node Unit Unit Unit)).get
              ⟨j, Nat.lt_trans hj hi⟩).lb = true)) :=
  ⟨by decide, C7_best_first [nodeW 5, nodeW 2, nodeW 8] (by decide) (by decide)⟩

theorem EFloat.le_of_sub_gt {tol : ℚ} {u l : EFloat} (htol : 0 ≤ tol)
    (h : EFloat.lt (EFloat.fin tol) (EFloat.sub u l) = true) :
    EFloat.le l u = true := by
  cases u <;> cases l <;>
    simp_all [EFloat.sub, EFloat.lt, EFloat.le] <;> linarith

theorem stepIter_notPruned_eq (cfg : Config) (S : Strategy R X T)
    (P : PyProblem X) (t : ℚ) (s : BnBState R X T)
    (h : EFloat.lt s.best_ub (boundNode S (S.getNext s.queue).1).lb = false) :
    stepIter cfg S P t s =
      ((iterOutcome cfg S P s).node,
       finishIter cfg t (iterOutcome cfg S P s).node (iterQueue cfg S P s)
         (iterOutcome cfg S P s).best_x (iterOutcome cfg S P s).best_ub s) := by
  rw [stepIter_notPruned cfg S P t s h]
  rfl

theorem iterOutcome_node_lb (cfg : Config) (S : Strategy R X T)
    (P : PyProblem X) (s : BnBState R X T) :
    (iterOutcome cfg S P s).node.lb =
      (boundNode S (S.getNext s.queue).1).lb := by
  rw [iterOutcome, incumbentUpdate]
  split <;> rfl

theorem finishIter_inv (cfg : Config) (t : ℚ) (node : Node R X T)
    (q : List (Node R X T)) (bx : Option X) (bub : EFloat)
    (s : BnBState R X T) (hub : bub ≠ EFloat.nan)
    (hq : ∀ n ∈ q, n.lb ≠ EFloat.nan ∧ EFloat.le n.lb bub = true) :
    BoundInv (finishIter cfg t node q bx bub s) := by
  refine ⟨hub, hq, ?_⟩
  show EFloat.le (lbRecompute q bub) bub = true
  cases q with
  | nil => exact EFloat.le_refl' hub
  | cons n rest =>
      have hmem := lbRecompute_mem (n :: rest) (by simp) bub
      obtain ⟨m, hm, hlbm⟩ := List.mem_map.1 hmem
      rw [← hlbm]
      exact (hq m hm).2

theorem iterQueue_inv (cfg : Config) (S : Strategy R X T) (P : PyProblem X)
    (s : BnBState R X T)
    (Hbr : ∀ n c, c ∈ S.branch n → c.lb = n.lb)
    (hq2 : ∀ n ∈ (iterOutcome cfg S P s).queue,
      n.lb ≠ EFloat.nan ∧
      EFloat.le n.lb (iterOutcome cfg S P s).best_ub = true)
    (hnn : (iterOutcome cfg S P s).node.lb ≠ EFloat.nan)
    (hcond : EFloat.lt (EFloat.fin cfg.abs_gap_tol)
        (_abs_gap (iterOutcome cfg S P s).best_ub
          (iterOutcome cfg S P s).node.lb) = true →
      EFloat.le (iterOutcome cfg S P s).node.lb
        (iterOutcome cfg S P s).best_ub = true) :
    ∀ n ∈ iterQueue cfg S P s,
      n.lb ≠ EFloat.nan ∧
      EFloat.le n.lb (iterOutcome cfg S P s).best_ub = true := by
  intro n hn
  rw [iterQueue] at hn
  by_cases hb : (EFloat.lt (EFloat.fin cfg.abs_gap_tol)
        (_abs_gap (iterOutcome cfg S P s).best_ub
          (iterOutcome cfg S P s).node.lb)
      && EFloat.lt (EFloat.fin cfg.rel_gap_tol)
        (_rel_gap (iterOutcome cfg S P s).best_ub
          (iterOutcome cfg S P s).node.lb)) = true
  · rw [if_pos hb] at hn
    rcases List.mem_append.1 hn with hmem | hch
    · exact hq2 n hmem
    · rw [Bool.and_eq_true] at hb
      have habs := hb.1
      have hlbn := Hbr _ n hch
      rw [hlbn]
      exact ⟨hnn, hcond habs⟩
  · rw [if_neg hb] at hn
    exact hq2 n hn

theorem stepIter_inv (cfg : Config) (S : Strategy R X T) (P : PyProblem X)
    (t : ℚ) (s : BnBState R X T)
    (Htol : 0 ≤ cfg.abs_gap_tol)
    (Hlb : ∀ n, (S.lbBound n).2 ≠ EFloat.nan)
    (Hbr : ∀ n c, c ∈ S.branch n → c.lb = n.lb)
    (Hget : ∀ q (n : Node R X T), n ∈ (S.getNext q).2 → n ∈ q)
    (h : BoundInv s) : BoundInv (stepIter cfg S P t s).2 := by
  obtain ⟨hub, hqp, hlb⟩ := h
  have hn1 : (boundNode S (S.getNext s.queue).1).lb ≠ EFloat.nan :=
    Hlb (S.getNext s.queue).1
  have hrest : ∀ n ∈ (S.getNext s.queue).2,
      n.lb ≠ EFloat.nan ∧ EFloat.le n.lb s.best_ub = true :=
    fun n hn => hqp n (Hget s.queue n hn)
  by_cases hpr : EFloat.lt s.best_ub (boundNode S (S.getNext s.queue).1).lb
    = true
  · rw [stepIter_pruned cfg S P t s hpr]
    exact finishIter_inv cfg t _ _ _ _ s hub hrest
  · have hpr' : EFloat.lt s.best_ub (boundNode S (S.getNext s.queue).1).lb
      = false := by simpa using hpr
    rw [stepIter_notPruned_eq cfg S P t s hpr']
    have hnn : (iterOutcome cfg S P s).node.lb ≠ EFloat.nan := by
      rw [iterOutcome_node_lb]
      exact hn1
    have hcond : EFloat.lt (EFloat.fin cfg.abs_gap_tol)
        (_abs_gap (iterOutcome cfg S P s).best_ub
          (iterOutcome cfg S P s).node.lb) = true →
        EFloat.le (iterOutcome cfg S P s).node.lb
          (iterOutcome cfg S P s).best_ub = true :=
      fun habs => EFloat.le_of_sub_gt Htol habs
    by_cases h2 : EFloat.lt (ubCandidate P S.ubBound cfg.feas_tol
        (processedNode S s)).2 s.best_ub = true
    · have hO : iterOutcome cfg S P s =
          { node := { processedNode S s with status := NodeStatus.FEASIBLE },
            best_x := (ubCandidate P S.ubBound cfg.feas_tol
              (processedNode S s)).1,
            best_ub := (ubCandidate P S.ubBound cfg.feas_tol
              (processedNode S s)).2,
            queue := (S.getNext s.queue).2.filter
              (fun q => EFloat.le q.lb (ubCandidate P S.ubBound cfg.feas_tol
                (processedNode S s)).2) } := by
        rw [iterOutcome, incumbentUpdate, if_pos h2]
      have hub' : (iterOutcome cfg S P s).best_ub ≠ EFloat.nan := by
        rw [hO]
        exact (EFloat.lt_no_nan h2).1
      have hq2 : ∀ n ∈ (iterOutcome cfg S P s).queue,
          n.lb ≠ EFloat.nan ∧
          EFloat.le n.lb (iterOutcome cfg S P s).best_ub = true := by
        rw [hO]
        intro n hn
        have hfl := (List.mem_filter.1 hn).2
        exact ⟨(EFloat.le_no_nan hfl).1, hfl⟩
      exact finishIter_inv cfg t _ _ _ _ s hub'
        (iterQueue_inv cfg S P s Hbr hq2 hnn hcond)
    · have hO : iterOutcome cfg S P s =
          { node := processedNode S s, best_x := s.best_x,
            best_ub := s.best_ub, queue := (S.getNext s.queue).2 } := by
        rw [iterOutcome, incumbentUpdate, if_neg (by simpa using h2)]
      have hub' : (iterOutcome cfg S P s).best_ub ≠ EFloat.nan := by
        rw [hO]
        exact hub
      have hq2 : ∀ n ∈ (iterOutcome cfg S P s).queue,
          n.lb ≠ EFloat.nan ∧
          EFloat.le n.lb (iterOutcome cfg S P s).best_ub = true := by
        rw [hO]
        exact hrest
      exact finishIter_inv cfg t _ _ _ _ s hub'
        (iterQueue_inv cfg S P s Hbr hq2 hnn hcond)

theorem initState_inv (S : Strategy R X T) (rr : R) (t0 : T)
    (Hadd : ∀ q (n m : Node R X T), m ∈ S.add q n → m ∈ q ∨ m = n) :
    BoundInv (initState S rr t0) := by
  refine ⟨by simp [initState], ?_, rfl⟩
  intro n hn
  rcases Hadd [] (Node.init rr 0 none EFloat.negInf t0) n hn with h | rfl
  · simp at h
  · exact ⟨by simp [Node.init], rfl⟩

theorem solveLoop_inv (cfg : Config) (S : Strategy R X T) (P : PyProblem X)
    (rr : R) (t0 : T) (timers : ℕ → ℚ)
    (Htol : 0 ≤ cfg.abs_gap_tol)
    (Hlb : ∀ n, (S.lbBound n).2 ≠ EFloat.nan)
    (Hbr : ∀ n c, c ∈ S.branch n → c.lb = n.lb)
    (Hget : ∀ q (n : Node R X T), n ∈ (S.getNext q).2 → n ∈ q)
    (Hadd : ∀ q (n m : Node R X T), m ∈ S.add q n → m ∈ q ∨ m = n) :
    ∀ k, BoundInv (solveLoop cfg S P rr t0 timers k) := by
  intro k
  induction k with
  | zero => exact initState_inv S rr t0 Hadd
  | succ k ih =>
      show BoundInv (if (solveLoop cfg S P rr t0 timers k).status =
          Status.RUNNING then
        (stepIter cfg S P (timers k) (solveLoop cfg S P rr t0 timers k)).2
        else solveLoop cfg S P rr t0 timers k)
      split
      · exact stepIter_inv cfg S P (timers k) _ Htol Hlb Hbr Hget ih
      · exact ih

/-- Claim C5: in every run of `BnB.solve` — under the contracts the
repository's strategies satisfy: a nonnegative absolute gap tolerance
(default `1e-8`), a lower bounding method that never produces a NaN
bound, a branching rule whose children inherit the parent's bound (as
`MIPBranchingRule` does), a `get_next` that returns a sub-queue and an
`add` that only inserts the given node — `best_lb ≤ best_ub` holds at
every iteration; in particular whenever both are finite rationals,
`best_lb ≤ best_ub` as rationals. -/
theorem C5_lb_le_ub (cfg : Config) (S : Strategy R X T) (P : PyProblem X)
    (rr : R) (t0 : T) (timers : ℕ → ℚ)
    (Htol : 0 ≤ cfg.abs_gap_tol)
    (Hlb : ∀ n, (S.lbBound n).2 ≠ EFloat.nan)
    (Hbr : ∀ n c, c ∈ S.branch n → c.lb = n.lb)
    (Hget : ∀ q (n : Node R X T), n ∈ (S.getNext q).2 → n ∈ q)
    (Hadd : ∀ q (n m : Node R X T), m ∈ S.add q n → m ∈ q ∨ m = n) :
    ∀ k, EFloat.le (solveLoop cfg S P rr t0 timers k).best_lb
        (solveLoop cfg S P rr t0 timers k).best_ub = true ∧
      ∀ a b : ℚ, (solveLoop cfg S P rr t0 timers k).best_lb = EFloat.fin a →
        (solveLoop cfg S P rr t0 timers k).best_ub = EFloat.fin b →
        a ≤ b := by
  intro k
  have h := solveLoop_inv cfg S P rr t0 timers Htol Hlb Hbr Hget Hadd k
  refine ⟨h.2.2, ?_⟩
  intro a b ha hb
  have hle := h.2.2
  rw [ha, hb] at hle
  simpa [EFloat.le] using hle

/-- Claim C5 witness: a concrete two-iteration run under a strategy
satisfying all the contract hypotheses keeps `best_lb ≤ best_ub`. -/
theorem C5_witness :
    (0 ≤ cfgW.abs_gap_tol) ∧
    EFloat.le (solveLoop cfgW SW PW () () (fun _ => 1) 2).best_lb
      (solveLoop cfgW SW PW () () (fun _ => 1) 2).best_ub = true := by
  refine ⟨by norm_num [cfgW], ?_⟩
  have hget : ∀ q (n : Node Unit Unit Unit), n ∈ (SW.getNext q).2 → n ∈ q := by
    intro q n h
    cases q with
    | nil => simp [SW] at h
    | cons a l => exact List.mem_cons_of_mem a (by simpa [SW] using h)
  have hadd : ∀ q (n m : Node Unit Unit Unit),
      m ∈ SW.add q n → m ∈ q ∨ m = n := by
    intro q n m h
    have h' : m ∈ q ++ [n] := h
    simpa using List.mem_append.1 h'
  exact (C5_lb_le_ub cfgW SW PW () () (fun _ => 1)
    (by norm_num [cfgW])
    (fun n => by simp [SW])
    (fun n c h => absurd h (List.not_mem_nil c))
    hget hadd 2).1

end BbPy
